import Mathlib


/-!
Shallow embedding of the trlx repository core for specification checking.

Source files embedded:
* `src/examples/randomwalks.py` — random-graph generation, walk sampling,
  shortest-path oracle and the `metric_fn` scorer.
* `src/trlx/trlx.py` — the `train` dispatcher.

Modelling conventions:
* Machine integers are `Nat`/`Int`; the float tensors of `metric_fn` hold
  exact small values (integers, `-1`, `1/length` and the optimality ratio),
  which we model in `ℚ`.  A float division whose denominator is zero
  (NaN/inf in torch) is modelled as `Option.none`.
* Python exceptions (the `IndexError` of an out-of-range tensor index) are
  modelled by `Option`: `metricFn` returns `none` when scoring raises.
* The numpy random generator is modelled by universally quantifying over
  the draws it can produce (a list of naturals for `randexclude`, a list of
  choice indices for `rng.choice`).
-/

/-- The `infty = 100` sentinel of `metric_fn` (line 72 of randomwalks.py). -/
def infty : ℕ := 100


/-- Decoding one character, `char_to_node.get(c, 1000)`:
`char_to_node = {chr(ix + ord("a")): ix for ix in range(n_nodes)}`, so a
character maps to `c - 'a'` when it lies in `['a', 'a' + nNodes)` and to the
sentinel `1000` otherwise. -/
def charToNode (nNodes : ℕ) (c : Char) : ℕ :=
  if 97 ≤ c.toNat ∧ c.toNat < 97 + nNodes then c.toNat - 97 else 1000


/-- Closure state of `metric_fn`: the (post terminal-fixup) adjacency matrix,
the node count, the walk-length bound (`worstlen = max_length`), the oracle
table `best_lengths` and the `gpt2_tokenizer` flag. -/
structure Env where
  nNodes : ℕ
  maxLength : ℕ
  adj : ℕ → ℕ → Bool
  bestLengths : List ℕ
  gpt2Tokenizer : Bool


/-- Decoding a sample: `if gpt2_tokenizer: s = s.replace("|", "")` followed by
`[char_to_node.get(c, 1000) for c in s]`. -/
def decodeSample (e : Env) (sample : List Char) : List ℕ :=
  (if e.gpt2Tokenizer then sample.filter (fun c => c ≠ '|') else sample).map
    (charToNode e.nNodes)


/-- The scanning loop of `metric_fn` (lines 81-92):
`for ix in range(len(s)): if s[ix] >= n_nodes or ix > 0 and not adj[s[ix-1], s[ix]]:
length = infty; break; elif s[ix] == 0: length = ix + 1; break` and
`length = infty` when the loop completes without a break.  `ix` is the current
position and `prev` the previously scanned node (only consulted when `0 < ix`). -/
def scanFrom (adj : ℕ → ℕ → Bool) (nNodes : ℕ) : ℕ → ℕ → List ℕ → ℕ
  | _, _, [] => infty
  | ix, prev, x :: xs =>
    if nNodes ≤ x ∨ (0 < ix ∧ adj prev x = false) then infty
    else if x = 0 then ix + 1
    else scanFrom adj nNodes (ix + 1) x xs


/-- The length assigned to one decoded sample by the scanning loop. -/
def scanLength (adj : ℕ → ℕ → Bool) (nNodes : ℕ) (s : List ℕ) : ℕ :=
  scanFrom adj nNodes 0 0 s


/-- Python list/tensor indexing `l[i]` with negative-index wrap-around;
`none` models the `IndexError` raised outside `[-len l, len l)`. -/
def pyGet (l : List ℕ) (i : ℤ) : Option ℕ :=
  if 0 ≤ i then l.get? i.toNat
  else if i.natAbs ≤ l.length then l.get? (l.length - i.natAbs)
  else none


/-- `bound_lengths = torch.where(lengths.eq(infty), worstlen, lengths).abs()`
per element (the values are non-negative, so `.abs()` is the identity). -/
def boundLength (worstlen L : ℕ) : ℕ :=
  if L = infty then worstlen else L


/-- `scaled_rewards = torch.where(lengths.eq(infty), -1, 1 / lengths)` per
element. -/
def scaledReward (L : ℕ) : ℚ :=
  if L = infty then -1 else 1 / (L : ℚ)


/-- One entry of `(worstlen - bound_lengths) / (worstlen - best_possible_lengths)`;
`none` models the non-finite float (NaN/inf) produced when the denominator is
zero.  Numerator and denominator are computed in `ℤ` (the operands are
integers) and the final division in `ℚ`. -/
def optValue (worstlen bound best : ℕ) : Option ℚ :=
  if (worstlen : ℤ) - (best : ℤ) = 0 then none
  else some ((((worstlen : ℤ) - (bound : ℤ) : ℤ) : ℚ) / (((worstlen : ℤ) - (best : ℤ) : ℤ) : ℚ))


/-- The per-sample loop of `metric_fn` (lines 76-96): decode, scan, and append
`best_lengths[s[0] - 1]`; `none` models the `IndexError` raised by `s[0]` on an
empty decoded sample or by an out-of-range oracle index. -/
def collect (e : Env) : List (List Char) → Option (List ℕ × List ℕ)
  | [] => some ([], [])
  | smp :: restSamples =>
    let s := decodeSample e smp
    match s with
    | [] => none
    | x :: _ =>
      match pyGet e.bestLengths ((x : ℤ) - 1) with
      | none => none
      | some b =>
        match collect e restSamples with
        | none => none
        | some (ls, bs) =>
          some (scanLength e.adj e.nNodes s :: ls, b :: bs)


/-- The result dictionary of `metric_fn`. -/
structure MetricResult where
  rewards : List ℚ
  lengths : List ℕ
  optimality : List (Option ℚ)
deriving DecidableEq, Repr


/-- `metric_fn(samples)`: the whole scoring call; `none` models the call
raising an exception (so no result tensors are returned at all). -/
def metricFn (e : Env) (samples : List (List Char)) : Option MetricResult :=
  match collect e samples with
  | none => none
  | some (ls, bs) =>
    some ⟨ls.map scaledReward, ls,
      (ls.zip bs).map (fun lb => optValue e.maxLength (boundLength e.maxLength lb.1) lb.2)⟩


/-! ### The shortest-path oracle (lines 59-68 of randomwalks.py) -/

/-- `reachIn adj n k u v` holds when the graph (restricted to nodes `< n`)
has a directed path of at most `k` edges from `u` to `v`. -/
def reachIn (adj : ℕ → ℕ → Bool) (n : ℕ) : ℕ → ℕ → ℕ → Bool
  | 0, u, v => u == v
  | k + 1, u, v => u == v || (List.range n).any (fun w => adj u w && reachIn adj n k w v)


/-- The least edge count of a directed path from `v` to node `0`, `none` when
node `0` is unreachable from `v` (a shortest path, if any, repeats no node, so
searching edge counts up to `n` is exhaustive). -/
def shortestDist (adj : ℕ → ℕ → Bool) (n v : ℕ) : Option ℕ :=
  (List.range (n + 1)).find? (fun k => reachIn adj n k v 0)


/-- The `best_lengths` entry computed for a non-goal node `v`:
`len(nx.shortest_path(g, v, 0)[:max_length])` — the node count of the shortest
path truncated to `max_length` — and `max_length` when no path exists
(the `except` branch). -/
def oracleEntry (adj : ℕ → ℕ → Bool) (n maxLength v : ℕ) : ℕ :=
  match shortestDist adj n v with
  | some d => min (d + 1) maxLength
  | none => maxLength


/-- The oracle table is as built by lines 59-68: one entry per non-goal node,
in ascending node order (CPython iterates `set(range(n)) - {0}` ascending for
these small ints), entry of node `v` stored at index `v - 1`. -/
def oracleSpec (e : Env) : Prop :=
  e.bestLengths.length = e.nNodes - 1 ∧
  ∀ v, v < e.nNodes → 1 ≤ v →
    e.bestLengths.get? (v - 1) = some (oracleEntry e.adj e.nNodes e.maxLength v)


/-! ### Graph generation and walk sampling (lines 18-54 of randomwalks.py) -/

/-- Acceptance condition of the generation loop: `np.all(adj.sum(1))`, i.e.
every row of the (diagonal-zeroed) matrix has at least one `True` entry. -/
def rowsNonzero (adj : ℕ → ℕ → Bool) (n : ℕ) : Bool :=
  (List.range n).all (fun i => (List.range n).any (fun j => adj i j))


/-- The terminal-state fixup `adj[0, :] = 0; adj[0, 0] = 1` applied to an
accepted matrix. -/
def terminalFixup (adj : ℕ → ℕ → Bool) : ℕ → ℕ → Bool :=
  fun i j => if i = 0 then decide (j = 0) else adj i j


/-- `randexclude(rng, n, exclude)`: draws from the generator until a value
different from `exclude` appears; `draws` is the stream of `rng.randint(n)`
results. -/
def randexclude (draws : List ℕ) (exclude : ℕ) : Option ℕ :=
  draws.find? (fun x => x ≠ exclude)


/-- `np.nonzero(adj[node])[0]` over the row of length `n`. -/
def outNeighbors (adj : ℕ → ℕ → Bool) (n node : ℕ) : List ℕ :=
  (List.range n).filter (fun j => adj node j)


/-- The walk extension loop (lines 42-46): for each remaining step pick
`rng.choice(np.nonzero(adj[node])[0])` — modelled by indexing the neighbour
list with a choice draw — append it, and stop once the goal is appended. -/
def walkSteps (adj : ℕ → ℕ → Bool) (n goal : ℕ) : ℕ → List ℕ → List ℕ
  | _, [] => []
  | node, c :: cs =>
    let nbrs := outNeighbors adj n node
    let next := nbrs.getD (c % nbrs.length) goal
    if next = goal then [next] else next :: walkSteps adj n goal next cs


/-- One sampled walk: the start node followed by at most `max_length - 1`
extension steps (`choices` has length `max_length - 1`, matching
`range(max_length - 1)`). -/
def sampleWalk (adj : ℕ → ℕ → Bool) (n goal start : ℕ) (choices : List ℕ) : List ℕ :=
  start :: walkSteps adj n goal start choices


/-! ### Scan-classification helpers -/

/-- A decoded prefix every position of which passes the scan checks without
reaching the goal: all symbols are in range and non-goal. -/
def CleanSeg (n : ℕ) (p : List ℕ) : Prop :=
  ∀ x ∈ p, x < n ∧ x ≠ 0


/-- The scan fails at the next symbol `x` after the clean prefix `p`: `x` is
out of range, or the edge from the last node of `p` into `x` is absent (at
position `0`, i.e. `p = []`, only the range check applies). -/
def BadNext (adj : ℕ → ℕ → Bool) (n : ℕ) (p : List ℕ) (x : ℕ) : Prop :=
  n ≤ x ∨ ∃ y, p.getLast? = some y ∧ adj y x = false


/-- A valid decoded path to the goal: a clean run of in-range non-goal nodes
followed by the goal node `0`, with every consecutive pair an edge. -/
def IsPathTo (adj : ℕ → ℕ → Bool) (n : ℕ) (s : List ℕ) : Prop :=
  ∃ p, s = p ++ [0] ∧ CleanSeg n p ∧
    List.Chain' (fun a b => adj a b = true) (p ++ [0])


/-! ### The dispatcher `train` (src/trlx/trlx.py, lines 10-102)

The trainer, pipelines and orchestrators are opaque external collaborators;
we record their construction and invocation as an event trace, which is the
observable side effect of a `train` call.  Config-independent details
(tokenization, `model_path`, `set_seed`) are elided; prompt lists are carried
on the pipeline events.  A raised `ValueError` is modelled as the error
component together with the events already performed when it is raised. -/

inductive TrainEvent where
  | trainerBuilt
  | trainPipelineBuilt (prompts : List String)
  | onlineOrchBuilt
  | onlineMakeExperience
  | offlineOrchBuilt
  | offlineMakeExperience (samples : List String) (rewards : List ℚ) (seqLength : ℕ)
  | storePipelineBuilt (samples : List String)
  | evalPipelineBuilt (prompts : List String)
  | learnRun
deriving DecidableEq, Repr


inductive TrainError where
  | lengthMismatch (nSamples nRewards : ℕ)
  | neitherGiven
deriving DecidableEq, Repr


/-- The arguments of `train` that the dispatch logic inspects.  `rewardFn`
records the truthiness of the `reward_fn` argument (a function object is
truthy, `None` is falsy). -/
structure TrainArgs where
  rewardFn : Bool
  dataset : Option (List String × List ℚ)
  samples : Option (List String)
  rewards : Option (List ℚ)
  prompts : Option (List String)
  evalPrompts : Option (List String)
  batchSize : ℕ
  worldSize : ℕ
  seqLength : ℕ
  bosToken : String


/-- Python truthiness of an optional list: `None` and `[]` are falsy; `optList`
is the list to which the truthy test and all subsequent uses apply. -/
def optList {α : Type} (o : Option (List α)) : List α := o.getD []


/-- `samples` after the deprecated-`dataset` unpacking (`if dataset: samples,
rewards = dataset` — a 2-tuple is always truthy). -/
def effSamples (a : TrainArgs) : List String :=
  match a.dataset with
  | some p => p.1
  | none => optList a.samples


/-- `rewards` after the deprecated-`dataset` unpacking. -/
def effRewards (a : TrainArgs) : List ℚ :=
  match a.dataset with
  | some p => p.2
  | none => optList a.rewards


/-- `prompts = prompts or [trainer.tokenizer.bos_token] * batch_size`
(line 71), with `batch_size = config.train.batch_size * WORLD_SIZE`. -/
def onlinePrompts (a : TrainArgs) : List String :=
  if (optList a.prompts).isEmpty then List.replicate (a.batchSize * a.worldSize) a.bosToken
  else optList a.prompts


/-- `if eval_prompts is None: eval_prompts = prompts[:batch_size]` (lines
73-74; an `is None` check, not a truthiness check). -/
def onlineEvalPrompts (a : TrainArgs) : List String :=
  match a.evalPrompts with
  | some l => l
  | none => (onlinePrompts a).take (a.batchSize * a.worldSize)


/-- `if eval_prompts is None: eval_prompts = [trainer.tokenizer.bos_token] *
batch_size` (lines 86-87). -/
def offlineEvalPrompts (a : TrainArgs) : List String :=
  match a.evalPrompts with
  | some l => l
  | none => List.replicate (a.batchSize * a.worldSize) a.bosToken


/-- The `train` dispatcher: the trainer is constructed first (line 58); then
`if reward_fn:` selects online mode, `elif samples:` offline mode (with the
length check and the rewards/no-rewards split), and the final `else` raises
`ValueError("Either samples or reward_fn should be given for training")`.
All non-error branches converge on building the eval pipeline, attaching it
and calling `trainer.learn()`. -/
def train (a : TrainArgs) : List TrainEvent × Option TrainError :=
  if a.rewardFn then
    ([.trainerBuilt, .trainPipelineBuilt (onlinePrompts a), .onlineOrchBuilt,
      .onlineMakeExperience, .evalPipelineBuilt (onlineEvalPrompts a), .learnRun], none)
  else if (effSamples a).isEmpty = false then
    if ((effRewards a).isEmpty = false) ∧ (effSamples a).length ≠ (effRewards a).length then
      ([.trainerBuilt], some (.lengthMismatch (effSamples a).length (effRewards a).length))
    else if (effRewards a).isEmpty = false then
      ([.trainerBuilt, .offlineOrchBuilt,
        .offlineMakeExperience (effSamples a) (effRewards a) a.seqLength,
        .evalPipelineBuilt (offlineEvalPrompts a), .learnRun], none)
    else
      ([.trainerBuilt, .storePipelineBuilt (effSamples a),
        .evalPipelineBuilt (offlineEvalPrompts a), .learnRun], none)
  else
    ([.trainerBuilt], some .neitherGiven)


/-! ### Concrete instances used as witnesses and counterexamples -/

/-- A post-fixup chain graph on 3 nodes: `0 → 0` (terminal self-loop),
`1 → 0`, `2 → 1`.  It is producible by the generator: the accepted pre-fixup
matrix with rows `0 → 1`, `1 → 0`, `2 → 1` has zero diagonal and no empty
row, and the fixup rewrites row `0` to the self-loop. -/
def adjChain : ℕ → ℕ → Bool := fun i j =>
  decide ((i = 0 ∧ j = 0) ∨ (i = 1 ∧ j = 0) ∨ (i = 2 ∧ j = 1))


/-- The pre-fixup accepted matrix for `adjChain`. -/
def adjChainPre : ℕ → ℕ → Bool := fun i j =>
  decide ((i = 0 ∧ j = 1) ∨ (i = 1 ∧ j = 0) ∨ (i = 2 ∧ j = 1))


/-- Chain-graph environment, `max_length = 10`: oracle entries are 2 (node 1)
and 3 (node 2). -/
def envChain : Env := ⟨3, 10, adjChain, [2, 3], false⟩


/-- Chain-graph environment with `max_length = 100`, i.e. equal to `infty`. -/
def envChainLong : Env := ⟨3, 100, adjChain, [2, 3], false⟩


/-- Chain-graph environment with `max_length = 3`: the oracle entry of node 2
equals the worst-case length. -/
def envChainShort : Env := ⟨3, 3, adjChain, [2, 3], false⟩


/-- A post-fixup graph on 3 nodes with a 2-cycle: `0 → 0`, `1 → 2`, `2 → 1`,
`1 → 0` (pre-fixup rows `0 → 1`, `1 → {0, 2}`, `2 → 1` are accepted). -/
def adjCycle : ℕ → ℕ → Bool := fun i j =>
  decide ((i = 0 ∧ j = 0) ∨ (i = 1 ∧ j = 2) ∨ (i = 2 ∧ j = 1) ∨ (i = 1 ∧ j = 0))


/-- Cycle-graph environment, `max_length = 10`. -/
def envCycle : Env := ⟨3, 10, adjCycle, [2, 3], false⟩


/-- A `train` call with neither a reward function nor samples. -/
def argsNeither : TrainArgs := ⟨false, none, none, none, none, none, 4, 1, 64, "s"⟩


/-- A `train` call with both a reward function and a samples/rewards dataset. -/
def argsBoth : TrainArgs := ⟨true, none, some ["x"], some [1], none, none, 4, 1, 64, "s"⟩


/-- A `train` call with `samples = []` and no reward function. -/
def argsEmptySamples : TrainArgs := ⟨false, none, some [], some [1], none, none, 4, 1, 64, "s"⟩


/-- A `train` call with one sample and `rewards = []`. -/
def argsEmptyRewards : TrainArgs := ⟨false, none, some ["x"], some [], none, none, 4, 1, 64, "s"⟩


/-! ### Executable helpers for concrete instances -/

/-- Executable form of edge-chaining, for evaluating concrete instances. -/
def chainHolds (adj : ℕ → ℕ → Bool) : List ℕ → Bool
  | [] => true
  | [_] => true
  | a :: b :: l => adj a b && chainHolds adj (b :: l)


/-- The sample of 100 symbols used against claim C6: it alternates between
nodes 1 and 2 of the cycle graph for 99 steps and reaches the goal at
position 99. -/
def c6sample : List Char := (List.replicate 49 (['b', 'c'] : List Char)).join ++ ['b', 'a']


/-- The decoded 99-node clean prefix of `c6sample`. -/
def c6run : List ℕ := (List.replicate 49 ([1, 2] : List ℕ)).join ++ [1]


/-! ### Behaviour of the scanning loop -/

/-- Scanning walks through a clean (in-range, non-goal, edge-connected) prefix
without triggering a break, advancing the position and the previous node. -/
theorem scanFrom_through (adj : ℕ → ℕ → Bool) (n : ℕ) :
    ∀ (p : List ℕ) (ix prev : ℕ) (rest : List ℕ),
      CleanSeg n p →
      (0 < ix → List.Chain' (fun a b => adj a b = true) (prev :: p)) →
      (ix = 0 → List.Chain' (fun a b => adj a b = true) p) →
      scanFrom adj n ix prev (p ++ rest) =
        scanFrom adj n (ix + p.length) (p.getLastD prev) rest := by
  intro p
  induction p with
  | nil => intro ix prev rest _ _ _; simp [List.getLastD]
  | cons x p' ih =>
    intro ix prev rest hclean h1 h0
    have hx : x < n ∧ x ≠ 0 := hclean x (by simp)
    have hcheck : ¬(n ≤ x ∨ (0 < ix ∧ adj prev x = false)) := by
      push_neg
      refine ⟨by omega, ?_⟩
      intro hix
      have hch := h1 hix
      rw [List.chain'_cons] at hch
      simp [hch.1]
    have hchainx : List.Chain' (fun a b => adj a b = true) (x :: p') := by
      rcases Nat.eq_zero_or_pos ix with h | h
      · exact h0 h
      · exact (h1 h).tail
    rw [List.cons_append]
    show scanFrom adj n ix prev (x :: (p' ++ rest)) = _
    rw [scanFrom]
    rw [if_neg hcheck, if_neg hx.2]
    rw [ih (ix + 1) x rest (fun y hy => hclean y (by simp [hy]))
      (fun _ => hchainx) (by omega)]
    have : (x :: p').getLastD prev = p'.getLastD x := by
      cases p' <;> simp [List.getLastD]
    rw [this]
    congr 1
    simp [List.length_cons]
    omega


/-- A decoded sequence that is a clean run followed by the goal node `0` is
classified reached, with length one past the position of the goal. -/
theorem scanLength_reach (adj : ℕ → ℕ → Bool) (n : ℕ) (hn : 0 < n)
    (p rest : List ℕ) (hclean : CleanSeg n p)
    (hchain : List.Chain' (fun a b => adj a b = true) (p ++ [0])) :
    scanLength adj n (p ++ 0 :: rest) = p.length + 1 := by
  have hsplit := (List.chain'_append).1 hchain
  unfold scanLength
  rw [scanFrom_through adj n p 0 0 (0 :: rest) hclean (by omega) (fun _ => hsplit.1)]
  rw [scanFrom]
  have hcheck : ¬(n ≤ 0 ∨ (0 < 0 + p.length ∧ adj (p.getLastD 0) 0 = false)) := by
    push_neg
    refine ⟨by omega, ?_⟩
    intro hlen
    have hp : p ≠ [] := by
      intro h
      rw [h] at hlen
      simp at hlen
    have hlast : p.getLast? = some (p.getLastD 0) := by
      cases p with
      | nil => exact absurd rfl hp
      | cons a l => rw [List.getLastD_cons, List.getLast?_cons]; simp [List.getLastD_eq_getLast?]
    have hE := hsplit.2.2 (p.getLastD 0) (by rw [hlast]; rfl) 0 rfl
    rw [List.getLastD_eq_getLast?] at hE
    simp [hE]
  rw [if_neg hcheck, if_pos rfl]
  omega


/-- A clean run followed by an out-of-range symbol is classified invalid. -/
theorem scanLength_fail_range (adj : ℕ → ℕ → Bool) (n : ℕ)
    (p : List ℕ) (x : ℕ) (rest : List ℕ) (hclean : CleanSeg n p)
    (hchain : List.Chain' (fun a b => adj a b = true) p)
    (hx : n ≤ x) :
    scanLength adj n (p ++ x :: rest) = infty := by
  unfold scanLength
  rw [scanFrom_through adj n p 0 0 (x :: rest) hclean (by omega) (fun _ => hchain)]
  rw [scanFrom]
  rw [if_pos (Or.inl hx)]


/-- A clean run followed by a symbol whose edge from the run's last node is
absent in the graph is classified invalid. -/
theorem scanLength_fail_edge (adj : ℕ → ℕ → Bool) (n : ℕ)
    (p : List ℕ) (x y : ℕ) (rest : List ℕ) (hclean : CleanSeg n p)
    (hchain : List.Chain' (fun a b => adj a b = true) p)
    (hlast : p.getLast? = some y) (hedge : adj y x = false) :
    scanLength adj n (p ++ x :: rest) = infty := by
  have hp : p ≠ [] := by
    intro h
    rw [h] at hlast
    simp at hlast
  unfold scanLength
  rw [scanFrom_through adj n p 0 0 (x :: rest) hclean (by omega) (fun _ => hchain)]
  rw [scanFrom]
  have hlen : 0 < 0 + p.length := by
    cases p with
    | nil => exact absurd rfl hp
    | cons a l => simp
  have hgd : p.getLastD 0 = y := by
    rw [List.getLastD_eq_getLast?, hlast]
    rfl
  rw [if_pos (Or.inr ⟨hlen, by rw [hgd]; exact hedge⟩)]


/-- A decoded sequence that is clean throughout is exhausted without reaching
the goal and classified invalid. -/
theorem scanLength_exhaust (adj : ℕ → ℕ → Bool) (n : ℕ)
    (p : List ℕ) (hclean : CleanSeg n p)
    (hchain : List.Chain' (fun a b => adj a b = true) p) :
    scanLength adj n p = infty := by
  unfold scanLength
  have h := scanFrom_through adj n p 0 0 [] hclean (by omega) (fun _ => hchain)
  rw [List.append_nil] at h
  rw [h]
  rfl


/-! ### Accessing one sample's metrics inside a batch -/

theorem get?_zip_of_get? {l l' : List ℕ} :
    ∀ (i : ℕ) (a b : ℕ), l.get? i = some a → l'.get? i = some b →
      (l.zip l').get? i = some (a, b) := by
  induction l generalizing l' with
  | nil => intro i a b ha; simp at ha
  | cons x xs ih =>
    intro i a b ha hb
    cases l' with
    | nil => simp at hb
    | cons y ys =>
      cases i with
      | zero =>
        rw [List.get?_cons_zero] at ha hb
        simp [List.zip_cons_cons, ha.symm, hb.symm]
        rw [Option.some.injEq] at ha hb
        simp [ha, hb]
      | succ j =>
        rw [List.get?_cons_succ] at ha hb
        rw [List.zip_cons_cons, List.get?_cons_succ]
        exact ih j a b ha hb


/-- What the per-sample loop records for the `i`-th sample: the scanned length
of its decoded form and the oracle entry looked up at its first decoded node
(Python index `s[0] - 1`). -/
theorem collect_get (e : Env) :
    ∀ (samples : List (List Char)) (ls bs : List ℕ),
      collect e samples = some (ls, bs) →
      ls.length = samples.length ∧ bs.length = samples.length ∧
      ∀ i smp, samples.get? i = some smp →
        ∃ v rest b, decodeSample e smp = v :: rest ∧
          ls.get? i = some (scanLength e.adj e.nNodes (v :: rest)) ∧
          pyGet e.bestLengths ((v : ℤ) - 1) = some b ∧
          bs.get? i = some b := by
  intro samples
  induction samples with
  | nil =>
    intro ls bs h
    simp [collect] at h
    refine ⟨by simp [h.1], by simp [h.2], ?_⟩
    intro i smp hsmp
    simp at hsmp
  | cons smp0 rest0 ih =>
    intro ls bs h
    rw [collect] at h
    cases hdec : decodeSample e smp0 with
    | nil => rw [hdec] at h; simp at h
    | cons v vrest =>
      rw [hdec] at h
      dsimp only at h
      cases hpg : pyGet e.bestLengths ((v : ℤ) - 1) with
      | none => rw [hpg] at h; simp at h
      | some b0 =>
        rw [hpg] at h
        cases hrec : collect e rest0 with
        | none => rw [hrec] at h; simp at h
        | some pr =>
          rw [hrec] at h
          obtain ⟨ls', bs'⟩ := pr
          simp at h
          obtain ⟨hls, hbs⟩ := h
          obtain ⟨hl1, hl2, hget⟩ := ih ls' bs' hrec
          subst hls hbs
          refine ⟨by simp [hl1], by simp [hl2], ?_⟩
          intro i smp hsmp
          cases i with
          | zero =>
            rw [List.get?_cons_zero, Option.some.injEq] at hsmp
            subst hsmp
            exact ⟨v, vrest, b0, hdec, by rw [List.get?_cons_zero], hpg,
              by rw [List.get?_cons_zero]⟩
          | succ j =>
            rw [List.get?_cons_succ] at hsmp
            obtain ⟨v', rest', b', h1, h2, h3, h4⟩ := hget j smp hsmp
            exact ⟨v', rest', b', h1, by rw [List.get?_cons_succ]; exact h2, h3,
              by rw [List.get?_cons_succ]; exact h4⟩


/-- `metric_fn` in terms of the recorded lengths and oracle entries. -/
theorem metricFn_of_collect (e : Env) (samples : List (List Char))
    (ls bs : List ℕ) (h : collect e samples = some (ls, bs)) :
    metricFn e samples = some ⟨ls.map scaledReward, ls,
      (ls.zip bs).map (fun lb => optValue e.maxLength (boundLength e.maxLength lb.1) lb.2)⟩ := by
  unfold metricFn
  rw [h]


/-- Scoring completes (no exception) when every sample decodes to a nonempty
sequence whose first node is in range. -/
theorem collect_total (e : Env) (hn : 2 ≤ e.nNodes)
    (hlen : e.bestLengths.length = e.nNodes - 1) :
    ∀ samples : List (List Char),
      (∀ smp ∈ samples, ∃ v rest, decodeSample e smp = v :: rest ∧ v < e.nNodes) →
      ∃ ls bs, collect e samples = some (ls, bs) := by
  intro samples
  induction samples with
  | nil => intro _; exact ⟨[], [], rfl⟩
  | cons smp0 rest0 ih =>
    intro hfirst
    obtain ⟨v, vrest, hdec, hv⟩ := hfirst smp0 (by simp)
    obtain ⟨ls', bs', hrec⟩ := ih (fun smp hsmp => hfirst smp (by simp [hsmp]))
    have hpg : ∃ b, pyGet e.bestLengths ((v : ℤ) - 1) = some b := by
      unfold pyGet
      rcases Nat.eq_zero_or_pos v with h0 | h1
      · subst h0
        have hna : (((0 : ℕ) : ℤ) - 1).natAbs = 1 := by decide
        rw [if_neg (by decide), if_pos (by rw [hna]; omega)]
        have hidx : e.bestLengths.length - (((0 : ℕ) : ℤ) - 1).natAbs < e.bestLengths.length := by
          rw [hna]
          omega
        exact ⟨_, List.get?_eq_get hidx⟩
      · rw [if_pos (by omega)]
        have htn : ((v : ℤ) - 1).toNat = v - 1 := by omega
        rw [htn]
        have hidx : v - 1 < e.bestLengths.length := by omega
        exact ⟨_, List.get?_eq_get hidx⟩
    obtain ⟨b, hb⟩ := hpg
    refine ⟨scanLength e.adj e.nNodes (v :: vrest) :: ls', b :: bs', ?_⟩
    rw [collect, hdec]
    dsimp only
    rw [hb]
    dsimp only
    rw [hrec]


/-! ### Claim C2 -/

/-- Claim C2, counterexample: calling `train` with neither `reward_fn` nor
`samples` does raise the configuration error, but a trainer construction side
effect is observable before it: `get_trainer(...)(...)` runs at line 58,
before the `else: raise ValueError(...)` at line 96.  This refutes the claim
that no trainer construction is observable before the error. -/
theorem c2_counterexample :
    (train argsNeither).2 = some TrainError.neitherGiven ∧
    TrainEvent.trainerBuilt ∈ (train argsNeither).1 := by
  constructor
  · rfl
  · show TrainEvent.trainerBuilt ∈ [TrainEvent.trainerBuilt]
    simp


/-- Claim C2 (amended): when `train` is called with neither `reward_fn` nor
(truthy) `samples`, it raises the configuration error with no pipeline or
orchestrator construction observable — but only after the trainer has been
constructed (the trainer construction at line 58 precedes all dispatching). -/
theorem c2_amended (a : TrainArgs) (hr : a.rewardFn = false)
    (hs : effSamples a = []) :
    train a = ([TrainEvent.trainerBuilt], some TrainError.neitherGiven) := by
  unfold train
  rw [hr, hs]
  simp


/-- Witness for C2 at a concrete call. -/
theorem c2_witness :
    argsNeither.rewardFn = false ∧ effSamples argsNeither = [] ∧
    train argsNeither = ([TrainEvent.trainerBuilt], some TrainError.neitherGiven) :=
  ⟨rfl, rfl, c2_amended argsNeither rfl rfl⟩


/-! ### Claim C3 -/

/-- Claim C3, counterexample: calling `train` with both a reward function and
a samples/rewards dataset raises no error at all — `if reward_fn:` takes the
online branch and the offline arguments are silently ignored. -/
theorem c3_counterexample :
    argsBoth.rewardFn = true ∧ effSamples argsBoth ≠ [] ∧ effRewards argsBoth ≠ [] ∧
    (train argsBoth).2 = none := by
  refine ⟨rfl, ?_, ?_, rfl⟩
  · intro h
    simp [effSamples, argsBoth, optList] at h
  · intro h
    simp [effRewards, argsBoth, optList] at h


/-- Claim C3 (amended): when both `reward_fn` and `samples`/`rewards` are
supplied, `train` does not raise; `reward_fn` takes precedence and the online
branch runs, ignoring the offline dataset entirely. -/
theorem c3_amended (a : TrainArgs) (hr : a.rewardFn = true) :
    train a = ([TrainEvent.trainerBuilt, TrainEvent.trainPipelineBuilt (onlinePrompts a),
      TrainEvent.onlineOrchBuilt, TrainEvent.onlineMakeExperience,
      TrainEvent.evalPipelineBuilt (onlineEvalPrompts a), TrainEvent.learnRun], none) := by
  unfold train
  rw [hr]
  simp


/-- Witness for C3 at a concrete call. -/
theorem c3_witness :
    argsBoth.rewardFn = true ∧
    train argsBoth = ([TrainEvent.trainerBuilt,
      TrainEvent.trainPipelineBuilt (onlinePrompts argsBoth),
      TrainEvent.onlineOrchBuilt, TrainEvent.onlineMakeExperience,
      TrainEvent.evalPipelineBuilt (onlineEvalPrompts argsBoth), TrainEvent.learnRun], none) :=
  ⟨rfl, c3_amended argsBoth rfl⟩


/-! ### Claim C9 -/

/-- Claim C9: empty lists are treated as absent by the dispatcher's truthiness
tests.  (a) `samples = []` with no reward function falls through to the
neither-source `ValueError`; (b) non-empty `samples` with `rewards = []` skips
both the length-mismatch check (despite the lengths differing) and reward
ingestion, and takes the supervised `trainer.store = pipeline` branch. -/
theorem c9_empty_lists :
    (∀ a : TrainArgs, a.rewardFn = false → a.dataset = none → a.samples = some [] →
      train a = ([TrainEvent.trainerBuilt], some TrainError.neitherGiven)) ∧
    (∀ (a : TrainArgs) (smp : List String), a.rewardFn = false → a.dataset = none →
      a.samples = some smp → smp ≠ [] → a.rewards = some [] →
      train a = ([TrainEvent.trainerBuilt, TrainEvent.storePipelineBuilt smp,
        TrainEvent.evalPipelineBuilt (offlineEvalPrompts a), TrainEvent.learnRun], none)) := by
  constructor
  · intro a hr hd hs
    unfold train
    rw [hr]
    simp [effSamples, hd, hs, optList]
  · intro a smp hr hd hs hne hrw
    unfold train
    rw [hr]
    simp [effSamples, effRewards, hd, hs, hrw, optList, List.isEmpty_iff, hne]


/-- Witness for C9 at concrete calls: part (a) with `samples = []` and
non-empty `rewards`, part (b) with one sample and `rewards = []` (note the
mismatched lengths 1 and 0 raise nothing). -/
theorem c9_witness :
    train argsEmptySamples = ([TrainEvent.trainerBuilt], some TrainError.neitherGiven) ∧
    train argsEmptyRewards = ([TrainEvent.trainerBuilt, TrainEvent.storePipelineBuilt ["x"],
      TrainEvent.evalPipelineBuilt (offlineEvalPrompts argsEmptyRewards),
      TrainEvent.learnRun], none) :=
  ⟨c9_empty_lists.1 argsEmptySamples rfl rfl rfl,
   c9_empty_lists.2 argsEmptyRewards ["x"] rfl rfl rfl (by simp) rfl⟩


/-! ### Claim C7 -/

/-- Claim C7: every graph produced by the generator — an accepted matrix
(every row nonzero, which is exactly the `np.all(adj.sum(1))` acceptance
test) followed by the terminal fixup — has at least one outgoing edge at
every non-terminal node, and node 0 has exactly one outgoing edge, its
self-loop at `(0, 0)`. -/
theorem c7_graph_invariants (n : ℕ) (adj : ℕ → ℕ → Bool)
    (hacc : rowsNonzero adj n = true) :
    (∀ i, i < n → 1 ≤ i → ∃ j, j < n ∧ terminalFixup adj i j = true) ∧
    terminalFixup adj 0 0 = true ∧
    (∀ j, j ≠ 0 → terminalFixup adj 0 j = false) := by
  refine ⟨?_, by simp [terminalFixup], ?_⟩
  · intro i hi h1
    simp only [rowsNonzero, List.all_eq_true, List.any_eq_true, List.mem_range] at hacc
    obtain ⟨j, hj, hadj⟩ := hacc i hi
    refine ⟨j, hj, ?_⟩
    simp only [terminalFixup, if_neg (by omega : ¬ i = 0)]
    exact hadj
  · intro j hj
    simp [terminalFixup, hj]


/-- Witness for C7 on a concrete accepted matrix. -/
theorem c7_witness :
    rowsNonzero adjChainPre 3 = true ∧
    ((∀ i, i < 3 → 1 ≤ i → ∃ j, j < 3 ∧ terminalFixup adjChainPre i j = true) ∧
      terminalFixup adjChainPre 0 0 = true ∧
      (∀ j, j ≠ 0 → terminalFixup adjChainPre 0 j = false)) :=
  ⟨by decide, c7_graph_invariants 3 adjChainPre (by decide)⟩


/-! ### Claim C8 -/

/-- Behaviour of one sampled walk from a node with out-edges everywhere:
length bound, edge-validity, and the stopping discipline (the goal appears
only as the final node, and a short walk must have stopped at the goal). -/
theorem sampleWalk_spec (adj : ℕ → ℕ → Bool) (n : ℕ)
    (hout : ∀ i, i < n → outNeighbors adj n i ≠ []) :
    ∀ (choices : List ℕ) (node : ℕ), node < n → node ≠ 0 →
      (sampleWalk adj n 0 node choices).length ≤ choices.length + 1 ∧
      List.Chain' (fun a b => adj a b = true) (sampleWalk adj n 0 node choices) ∧
      (∀ i, i + 1 < (sampleWalk adj n 0 node choices).length →
        (sampleWalk adj n 0 node choices).get? i ≠ some 0) ∧
      ((sampleWalk adj n 0 node choices).length < choices.length + 1 →
        (sampleWalk adj n 0 node choices).getLast? = some 0) := by
  intro choices
  induction choices with
  | nil =>
    intro node _ _
    refine ⟨by simp [sampleWalk, walkSteps], by simp [sampleWalk, walkSteps], ?_, ?_⟩
    · intro i hi
      simp [sampleWalk, walkSteps] at hi
    · intro h
      simp [sampleWalk, walkSteps] at h
  | cons c cs ih =>
    intro node hnode hne0
    have hnb : outNeighbors adj n node ≠ [] := hout node hnode
    have hmem : (outNeighbors adj n node).getD (c % (outNeighbors adj n node).length) 0 ∈
        outNeighbors adj n node := by
      have hlen : 0 < (outNeighbors adj n node).length := List.length_pos.2 hnb
      have hlt : c % (outNeighbors adj n node).length < (outNeighbors adj n node).length :=
        Nat.mod_lt _ hlen
      rw [List.getD_eq_get?, List.get?_eq_get hlt]
      exact List.get_mem _ _ _
    have hmem' := hmem
    simp only [outNeighbors, List.mem_filter, List.mem_range] at hmem'
    obtain ⟨hnextlt, hnextadj⟩ := hmem'
    set next := (outNeighbors adj n node).getD (c % (outNeighbors adj n node).length) 0 with hnext
    show (sampleWalk adj n 0 node (c :: cs)).length ≤ cs.length + 2 ∧ _
    rcases eq_or_ne next 0 with h0 | h0
    · have hw : sampleWalk adj n 0 node (c :: cs) = [node, 0] := by
        simp only [sampleWalk, walkSteps]
        rw [← hnext, if_pos h0, h0]
      rw [hw]
      refine ⟨by simp, ?_, ?_, ?_⟩
      · rw [List.chain'_cons]
        exact ⟨by rw [← h0]; exact hnextadj, by simp⟩
      · intro i hi
        simp at hi
        have hi0 : i = 0 := by omega
        subst hi0
        simp [hne0]
      · intro _
        simp
    · have hw : sampleWalk adj n 0 node (c :: cs) =
          node :: sampleWalk adj n 0 next cs := by
        simp only [sampleWalk, walkSteps]
        rw [← hnext, if_neg h0]
      obtain ⟨ih1, ih2, ih3, ih4⟩ := ih next hnextlt h0
      rw [hw]
      refine ⟨?_, ?_, ?_, ?_⟩
      · simp only [List.length_cons]
        omega
      · rw [show sampleWalk adj n 0 next cs = next :: walkSteps adj n 0 next cs from rfl,
          List.chain'_cons]
        exact ⟨hnextadj, ih2⟩
      · intro i hi
        cases i with
        | zero =>
          rw [List.get?_cons_zero]
          intro hcontra
          rw [Option.some.injEq] at hcontra
          exact hne0 hcontra
        | succ j =>
          rw [List.get?_cons_succ]
          apply ih3
          simp only [List.length_cons] at hi
          omega
      · intro hlt
        simp only [List.length_cons] at hlt
        have := ih4 (by omega)
        rw [show sampleWalk adj n 0 next cs = next :: walkSteps adj n 0 next cs from rfl] at this ⊢
        cases hws : walkSteps adj n 0 next cs with
        | nil => rw [hws] at this; simp at this; simp [this]
        | cons w ws =>
          rw [hws] at this
          rw [List.getLast?_cons_cons]
          exact this


/-- Claim C8: every sampled walk over a generated (accepted, then
terminal-fixed) graph has between 1 and `max_length` nodes, starts at a
non-terminal node drawn by `randexclude`, follows only existing edges of the
post-fixup graph, the goal appears only as the walk's final node, and a walk
shorter than `max_length` must have stopped early at the goal. -/
theorem c8_sampled_walks (n maxLen : ℕ) (adj0 : ℕ → ℕ → Bool)
    (draws : List ℕ) (start : ℕ) (choices : List ℕ)
    (hacc : rowsNonzero adj0 n = true) (hn : 0 < n)
    (hdraws : ∀ x ∈ draws, x < n)
    (hstart : randexclude draws 0 = some start)
    (hm : 1 ≤ maxLen) (hc : choices.length = maxLen - 1) :
    1 ≤ (sampleWalk (terminalFixup adj0) n 0 start choices).length ∧
    (sampleWalk (terminalFixup adj0) n 0 start choices).length ≤ maxLen ∧
    (sampleWalk (terminalFixup adj0) n 0 start choices).head? = some start ∧
    start ≠ 0 ∧
    List.Chain' (fun a b => terminalFixup adj0 a b = true)
      (sampleWalk (terminalFixup adj0) n 0 start choices) ∧
    (∀ i, i + 1 < (sampleWalk (terminalFixup adj0) n 0 start choices).length →
      (sampleWalk (terminalFixup adj0) n 0 start choices).get? i ≠ some 0) ∧
    ((sampleWalk (terminalFixup adj0) n 0 start choices).length < maxLen →
      (sampleWalk (terminalFixup adj0) n 0 start choices).getLast? = some 0) := by
  have hs0 : start ≠ 0 := by
    have := List.find?_some hstart
    simpa using this
  have hsn : start < n := hdraws start (List.mem_of_find?_eq_some hstart)
  have hout : ∀ i, i < n → outNeighbors (terminalFixup adj0) n i ≠ [] := by
    intro i hi
    rcases eq_or_ne i 0 with h0 | h0
    · subst h0
      have hmem : 0 ∈ outNeighbors (terminalFixup adj0) n 0 := by
        simp [outNeighbors, List.mem_filter, List.mem_range, terminalFixup, hn]
      exact List.ne_nil_of_mem hmem
    · simp only [rowsNonzero, List.all_eq_true, List.any_eq_true, List.mem_range] at hacc
      obtain ⟨j, hj, hadj⟩ := hacc i hi
      have hmem : j ∈ outNeighbors (terminalFixup adj0) n i := by
        simp only [outNeighbors, List.mem_filter, List.mem_range]
        exact ⟨hj, by simp [terminalFixup, h0, hadj]⟩
      exact List.ne_nil_of_mem hmem
  obtain ⟨h1, h2, h3, h4⟩ := sampleWalk_spec (terminalFixup adj0) n hout choices start hsn hs0
  refine ⟨by simp [sampleWalk], by omega, by simp [sampleWalk], hs0, h2, h3, ?_⟩
  intro hlt
  exact h4 (by omega)


/-- Witness for C8 on a concrete generated graph and draw streams. -/
theorem c8_witness :
    rowsNonzero adjChainPre 3 = true ∧
    randexclude [0, 2] 0 = some 2 ∧
    (1 ≤ (sampleWalk (terminalFixup adjChainPre) 3 0 2 [0, 0, 0]).length ∧
      (sampleWalk (terminalFixup adjChainPre) 3 0 2 [0, 0, 0]).length ≤ 4 ∧
      (sampleWalk (terminalFixup adjChainPre) 3 0 2 [0, 0, 0]).head? = some 2 ∧
      (2 : ℕ) ≠ 0 ∧
      List.Chain' (fun a b => terminalFixup adjChainPre a b = true)
        (sampleWalk (terminalFixup adjChainPre) 3 0 2 [0, 0, 0]) ∧
      (∀ i, i + 1 < (sampleWalk (terminalFixup adjChainPre) 3 0 2 [0, 0, 0]).length →
        (sampleWalk (terminalFixup adjChainPre) 3 0 2 [0, 0, 0]).get? i ≠ some 0) ∧
      ((sampleWalk (terminalFixup adjChainPre) 3 0 2 [0, 0, 0]).length < 4 →
        (sampleWalk (terminalFixup adjChainPre) 3 0 2 [0, 0, 0]).getLast? = some 0)) :=
  ⟨by decide, by decide,
    c8_sampled_walks 3 4 adjChainPre [0, 2] 2 [0, 0, 0] (by decide) (by decide)
      (by decide) (by decide) (by decide) (by decide)⟩


/-! ### Claim C10 -/

/-- Claim C10: when a sample's first decoded node is the goal node 0, the
oracle lookup `best_lengths[s[0] - 1]` evaluates `best_lengths[-1]`, i.e. the
last table entry — the entry of the highest-index non-terminal node (stored
at index `nNodes - 2`) — so its optimality is computed against that node's
oracle length, while its length is 1 and its reward is 1. -/
theorem c10_goal_first (e : Env) (samples : List (List Char)) (i : ℕ)
    (smp : List Char) (rest : List ℕ) (ls bs : List ℕ)
    (hn : 2 ≤ e.nNodes) (hlen : e.bestLengths.length = e.nNodes - 1)
    (hcol : collect e samples = some (ls, bs))
    (hsmp : samples.get? i = some smp)
    (hdec : decodeSample e smp = 0 :: rest) :
    ∃ res b, metricFn e samples = some res ∧
      e.bestLengths.getLast? = some b ∧
      e.bestLengths.get? (e.nNodes - 2) = some b ∧
      res.lengths.get? i = some 1 ∧
      res.rewards.get? i = some 1 ∧
      res.optimality.get? i = some (optValue e.maxLength 1 b) := by
  obtain ⟨hl1, hl2, hget⟩ := collect_get e samples ls bs hcol
  obtain ⟨v, rest', b, hdec', hls, hpg, hbs⟩ := hget i smp hsmp
  rw [hdec] at hdec'
  rw [List.cons.injEq] at hdec'
  obtain ⟨hv0, hrest⟩ := hdec'
  subst hv0
  subst hrest
  have hscan : scanLength e.adj e.nNodes (0 :: rest) = 1 := by
    have := scanLength_reach e.adj e.nNodes (by omega) [] rest
      (by intro x hx; simp at hx) (by simp)
    simpa using this
  have hpg' : pyGet e.bestLengths (((0 : ℕ) : ℤ) - 1) = e.bestLengths.get? (e.bestLengths.length - 1) := by
    unfold pyGet
    rw [if_neg (by decide), if_pos (by simp; omega)]
    norm_num
  have hblen : e.bestLengths.length - 1 = e.nNodes - 2 := by omega
  have hlast : e.bestLengths.getLast? = some b := by
    rw [List.getLast?_eq_get?]
    rw [hpg', hblen] at hpg
    rw [hblen]
    exact hpg
  refine ⟨_, b, metricFn_of_collect e samples ls bs hcol, hlast, ?_, ?_, ?_, ?_⟩
  · rw [hpg', hblen] at hpg
    exact hpg
  · rw [hls, hscan]
  · rw [List.get?_map, hls, hscan]
    have hsr : scaledReward 1 = 1 := by norm_num [scaledReward, infty]
    simp only [Option.map_some']
    rw [hsr]
  · rw [List.get?_map]
    rw [hscan] at hls
    rw [get?_zip_of_get? i 1 b hls hbs]
    simp only [Option.map_some']
    have hbl : boundLength e.maxLength 1 = 1 := by norm_num [boundLength, infty]
    rw [hbl]


/-- Witness for C10 at a concrete call: the sample `"ab"` starts at the goal
symbol; the looked-up entry is the last one (node 2's oracle length 3). -/
theorem c10_witness :
    collect envChain [['a', 'b']] = some ([1], [3]) ∧
    decodeSample envChain ['a', 'b'] = 0 :: [1] ∧
    (∃ res b, metricFn envChain [['a', 'b']] = some res ∧
      envChain.bestLengths.getLast? = some b ∧
      envChain.bestLengths.get? (envChain.nNodes - 2) = some b ∧
      res.lengths.get? 0 = some 1 ∧
      res.rewards.get? 0 = some 1 ∧
      res.optimality.get? 0 = some (optValue envChain.maxLength 1 b)) :=
  ⟨by decide, by decide,
    c10_goal_first envChain [['a', 'b']] 0 ['a', 'b'] [1] [1] [3]
      (by decide) (by decide) (by decide) (by decide) (by decide)⟩


/-! ### Claim C1 -/

/-- Claim C1, counterexample: a sample whose first symbol is unknown decodes
to the sentinel 1000 at position 0, and the oracle lookup
`best_lengths[s[0] - 1] = best_lengths[999]` raises an `IndexError`, aborting
the whole scoring call (`metricFn` returns no result).  This refutes the
claim that scoring is never aborted by an unknown symbol at any position
including the first. -/
theorem c1_counterexample :
    charToNode envChain.nNodes 'z' = 1000 ∧
    metricFn envChain [['z']] = none := by
  constructor
  · decide
  · decide


/-- Claim C1 (amended): an unknown symbol at any scanned position after the
first is mapped to the sentinel 1000 (out of range for any `nNodes ≤ 1000`)
and the sample is classified invalid, and scoring completes for the whole
batch, provided every sample in the batch decodes to a nonempty sequence
whose first symbol is known; a sample whose first symbol is unknown aborts
the whole scoring call via the out-of-range oracle lookup. -/
theorem c1_amended (e : Env) (samples : List (List Char))
    (hn : 2 ≤ e.nNodes) (hub : e.nNodes ≤ 1000)
    (hlen : e.bestLengths.length = e.nNodes - 1)
    (hfirst : ∀ smp ∈ samples, ∃ v rest, decodeSample e smp = v :: rest ∧ v < e.nNodes) :
    ∃ res, metricFn e samples = some res ∧
      ∀ i smp p rest, samples.get? i = some smp →
        decodeSample e smp = p ++ 1000 :: rest →
        CleanSeg e.nNodes p →
        List.Chain' (fun a b => e.adj a b = true) p →
        res.lengths.get? i = some infty ∧ res.rewards.get? i = some (-1) := by
  obtain ⟨ls, bs, hcol⟩ := collect_total e hn hlen samples hfirst
  obtain ⟨hl1, hl2, hget⟩ := collect_get e samples ls bs hcol
  refine ⟨_, metricFn_of_collect e samples ls bs hcol, ?_⟩
  intro i smp p rest hsmp hdec hclean hchain
  obtain ⟨v, rest', b, hdec', hls, hpg, hbs⟩ := hget i smp hsmp
  have hscan : scanLength e.adj e.nNodes (v :: rest') = infty := by
    rw [← hdec', hdec]
    exact scanLength_fail_range e.adj e.nNodes p 1000 rest hclean hchain hub
  constructor
  · rw [hls, hscan]
  · rw [List.get?_map, hls, hscan]
    simp only [Option.map_some']
    have : scaledReward infty = -1 := by simp [scaledReward]
    rw [this]


/-- Witness for C1 at a concrete call: `"bz"` has an unknown symbol at
position 1 and is classified invalid without aborting the batch. -/
theorem c1_witness :
    decodeSample envChain ['b', 'z'] = [1] ++ 1000 :: [] ∧
    (∃ res, metricFn envChain [['b', 'z']] = some res ∧
      ∀ i smp p rest, [['b', 'z']].get? i = some smp →
        decodeSample envChain smp = p ++ 1000 :: rest →
        CleanSeg envChain.nNodes p →
        List.Chain' (fun a b => envChain.adj a b = true) p →
        res.lengths.get? i = some infty ∧ res.rewards.get? i = some (-1)) :=
  ⟨by decide,
    c1_amended envChain [['b', 'z']] (by decide) (by decide) (by decide)
      (by
        intro smp hsmp
        rw [List.mem_singleton] at hsmp
        subst hsmp
        exact ⟨1, [1000], by decide, by decide⟩)⟩


/-! ### Claim C4 -/

/-- Claim C4, counterexample: with `max_length = 100` the scorer still
returns `reward = -1` and `length = infty` for a sample with a nonexistent
edge, but the sentinel `infty = 100` is not strictly greater than
`max_length`, refuting the claim's "for every max_length" part. -/
theorem c4_counterexample :
    (metricFn envChainLong [['c', 'c']]).map MetricResult.lengths = some [infty] ∧
    (metricFn envChainLong [['c', 'c']]).map MetricResult.rewards = some [-1] ∧
    ¬ (envChainLong.maxLength < infty) := by
  refine ⟨by decide, ?_, by decide⟩
  have hcol : collect envChainLong [['c', 'c']] = some ([100], [3]) := by decide
  rw [metricFn_of_collect envChainLong [['c', 'c']] [100] [3] hcol]
  simp only [Option.map_some']
  have : scaledReward 100 = -1 := by simp [scaledReward, infty]
  simp [this]


/-- Claim C4 (amended): for a scored sample that hits an out-of-range symbol
or a nonexistent edge at some scanned position, or is exhausted without
reaching the goal, the scorer returns `reward = -1` and `length = infty`;
the sentinel `infty = 100` is strictly greater than `max_length` only under
the additional hypothesis `max_length < 100` (it is a fixed constant, not a
function of `max_length`). -/
theorem c4_amended (e : Env) (samples : List (List Char)) (i : ℕ)
    (smp : List Char) (ls bs : List ℕ)
    (hml : e.maxLength < infty)
    (hcol : collect e samples = some (ls, bs))
    (hsmp : samples.get? i = some smp)
    (hbad :
      (∃ p x rest, decodeSample e smp = p ++ x :: rest ∧ CleanSeg e.nNodes p ∧
        List.Chain' (fun a b => e.adj a b = true) p ∧ BadNext e.adj e.nNodes p x) ∨
      (CleanSeg e.nNodes (decodeSample e smp) ∧
        List.Chain' (fun a b => e.adj a b = true) (decodeSample e smp))) :
    ∃ res, metricFn e samples = some res ∧
      res.rewards.get? i = some (-1) ∧
      res.lengths.get? i = some infty ∧
      e.maxLength < infty := by
  obtain ⟨hl1, hl2, hget⟩ := collect_get e samples ls bs hcol
  obtain ⟨v, rest', b, hdec', hls, hpg, hbs⟩ := hget i smp hsmp
  have hscan : scanLength e.adj e.nNodes (v :: rest') = infty := by
    rw [← hdec']
    rcases hbad with ⟨p, x, rest, hdec, hclean, hchain, hbadnext⟩ | ⟨hclean, hchain⟩
    · rw [hdec]
      rcases hbadnext with hrange | ⟨y, hlast, hedge⟩
      · exact scanLength_fail_range e.adj e.nNodes p x rest hclean hchain hrange
      · exact scanLength_fail_edge e.adj e.nNodes p x y rest hclean hchain hlast hedge
    · exact scanLength_exhaust e.adj e.nNodes _ hclean hchain
  refine ⟨_, metricFn_of_collect e samples ls bs hcol, ?_, ?_, hml⟩
  · rw [List.get?_map, hls, hscan]
    simp only [Option.map_some']
    have : scaledReward infty = -1 := by simp [scaledReward]
    rw [this]
  · rw [hls, hscan]


/-- Witness for C4 at a concrete call: `"cc"` takes the nonexistent edge
`2 → 2`. -/
theorem c4_witness :
    envChain.maxLength < infty ∧
    collect envChain [['c', 'c']] = some ([100], [3]) ∧
    (∃ res, metricFn envChain [['c', 'c']] = some res ∧
      res.rewards.get? 0 = some (-1) ∧
      res.lengths.get? 0 = some infty ∧
      envChain.maxLength < infty) :=
  ⟨by decide, by decide,
    c4_amended envChain [['c', 'c']] 0 ['c', 'c'] [100] [3] (by decide) (by decide) (by decide)
      (Or.inl ⟨[2], 2, [], by decide,
        by intro x hx; rw [List.mem_singleton] at hx; subst hx; exact ⟨by decide, by decide⟩,
        by simp,
        Or.inr ⟨2, by decide, by decide⟩⟩)⟩


theorem chainHolds_iff (adj : ℕ → ℕ → Bool) :
    ∀ l : List ℕ, chainHolds adj l = true ↔ List.Chain' (fun a b => adj a b = true) l := by
  intro l
  induction l with
  | nil => simp [chainHolds]
  | cons a l ih =>
    cases l with
    | nil => simp [chainHolds]
    | cons b t =>
      rw [List.chain'_cons, ← ih, chainHolds]
      simp


theorem cleanSeg_of_all (n : ℕ) (p : List ℕ)
    (h : p.all (fun x => decide (x < n) && decide (x ≠ 0)) = true) : CleanSeg n p := by
  intro x hx
  rw [List.all_eq_true] at h
  have hx' := h x hx
  simp at hx'
  exact hx'


/-! ### Claim C6 -/

/-- Claim C6 (amended): a sample whose decoded sequence first reaches the
goal at position `k - 1`, all earlier positions being in-range non-goal
symbols joined by existing edges, scores `length = k` and `reward = 1 / k` —
provided `k ≠ 100`: at `k = infty = 100` the length collides with the
sentinel and the reward is `-1` instead. -/
theorem c6_amended (e : Env) (samples : List (List Char)) (i : ℕ)
    (smp : List Char) (p rest : List ℕ) (ls bs : List ℕ)
    (hn : 0 < e.nNodes)
    (hcol : collect e samples = some (ls, bs))
    (hsmp : samples.get? i = some smp)
    (hdec : decodeSample e smp = p ++ 0 :: rest)
    (hclean : CleanSeg e.nNodes p)
    (hchain : List.Chain' (fun a b => e.adj a b = true) (p ++ [0]))
    (hk : p.length + 1 ≠ infty) :
    ∃ res, metricFn e samples = some res ∧
      res.lengths.get? i = some (p.length + 1) ∧
      res.rewards.get? i = some (1 / ((p.length + 1 : ℕ) : ℚ)) := by
  obtain ⟨hl1, hl2, hget⟩ := collect_get e samples ls bs hcol
  obtain ⟨v, rest', b, hdec', hls, hpg, hbs⟩ := hget i smp hsmp
  have hscan : scanLength e.adj e.nNodes (v :: rest') = p.length + 1 := by
    rw [← hdec', hdec]
    exact scanLength_reach e.adj e.nNodes hn p rest hclean hchain
  refine ⟨_, metricFn_of_collect e samples ls bs hcol, ?_, ?_⟩
  · rw [hls, hscan]
  · rw [List.get?_map, hls, hscan]
    simp only [Option.map_some']
    rw [scaledReward, if_neg hk]


set_option maxRecDepth 4000 in
/-- Claim C6, counterexample: the 100-symbol sample `c6sample` over the cycle
graph first reaches the goal at position 99 (so `k = 100`) after a clean
valid prefix, yet its reward is `-1`, not `1 / 100` — `length = k = 100`
collides with the `infty` sentinel. -/
theorem c6_counterexample :
    decodeSample envCycle c6sample = c6run ++ 0 :: [] ∧
    c6run.all (fun x => decide (x < envCycle.nNodes) && decide (x ≠ 0)) = true ∧
    chainHolds envCycle.adj (c6run ++ [0]) = true ∧
    c6run.length + 1 = 100 ∧
    (metricFn envCycle [c6sample]).map MetricResult.lengths = some [100] ∧
    (metricFn envCycle [c6sample]).map MetricResult.rewards = some [-1] ∧
    (-1 : ℚ) ≠ 1 / ((100 : ℕ) : ℚ) := by
  have hcol : collect envCycle [c6sample] = some ([100], [2]) := by decide
  refine ⟨by decide, by decide, by decide, by decide, ?_, ?_, by norm_num⟩
  · rw [metricFn_of_collect envCycle [c6sample] [100] [2] hcol]
    simp only [Option.map_some']
  · rw [metricFn_of_collect envCycle [c6sample] [100] [2] hcol]
    simp only [Option.map_some']
    have : scaledReward 100 = -1 := by simp [scaledReward, infty]
    simp [this]


/-- Witness for C6 at a concrete call: `"ba"` reaches the goal at position 1,
`k = 2`, scoring `length = 2`, `reward = 1/2`. -/
theorem c6_witness :
    collect envChain [['b', 'a']] = some ([2], [2]) ∧
    (∃ res, metricFn envChain [['b', 'a']] = some res ∧
      res.lengths.get? 0 = some (([1] : List ℕ).length + 1) ∧
      res.rewards.get? 0 = some (1 / ((([1] : List ℕ).length + 1 : ℕ) : ℚ))) :=
  ⟨by decide,
    c6_amended envChain [['b', 'a']] 0 ['b', 'a'] [1] [] [2] [2]
      (by decide) (by decide) (by decide) (by decide)
      (by intro x hx; rw [List.mem_singleton] at hx; subst hx; exact ⟨by decide, by decide⟩)
      ((chainHolds_iff envChain.adj [1, 0]).1 (by decide))
      (by decide)⟩


/-! ### Claim C5 -/

theorem optValue_eq_one (m L : ℕ) (h : L < m) : optValue m L L = some 1 := by
  unfold optValue
  rw [if_neg (by omega)]
  congr 1
  apply div_self
  intro hc
  rw [Int.cast_eq_zero] at hc
  omega


theorem optValue_eq_zero (m b : ℕ) (h : b < m) : optValue m m b = some 0 := by
  unfold optValue
  rw [if_neg (by omega)]
  simp


/-- Claim C5 (amended): provided the oracle length of the sample's first
decoded node is strictly below the worst-case length (otherwise the
denominator `worstlen - best` is zero and the division yields no finite
value) and `max_length ≤ 100`, the optimality is exactly 1 for a sample
decoding to a valid goal-reaching path whose length equals the oracle's
shortest-path length for its start node, and exactly 0 for a sample whose
bounded length equals the worst-case length. -/
theorem c5_amended (e : Env) (samples : List (List Char)) (i : ℕ)
    (smp : List Char) (v : ℕ) (ls bs : List ℕ)
    (horc : oracleSpec e)
    (hml : e.maxLength ≤ infty)
    (hcol : collect e samples = some (ls, bs))
    (hsmp : samples.get? i = some smp)
    (hv : (decodeSample e smp).head? = some v)
    (hv1 : 1 ≤ v) (hvn : v < e.nNodes)
    (hbound : oracleEntry e.adj e.nNodes e.maxLength v < e.maxLength) :
    ∃ res, metricFn e samples = some res ∧
      ((IsPathTo e.adj e.nNodes (decodeSample e smp) ∧
        (decodeSample e smp).length = oracleEntry e.adj e.nNodes e.maxLength v) →
        res.optimality.get? i = some (some 1)) ∧
      (boundLength e.maxLength (scanLength e.adj e.nNodes (decodeSample e smp)) = e.maxLength →
        res.optimality.get? i = some (some 0)) := by
  obtain ⟨hl1, hl2, hget⟩ := collect_get e samples ls bs hcol
  obtain ⟨v', rest', b, hdec', hls, hpg, hbs⟩ := hget i smp hsmp
  have hvv : v = v' := by
    rw [hdec'] at hv
    rw [List.head?_cons, Option.some.injEq] at hv
    exact hv.symm
  subst hvv
  have hpg' : pyGet e.bestLengths ((v : ℤ) - 1) = e.bestLengths.get? (v - 1) := by
    unfold pyGet
    rw [if_pos (by omega)]
    congr 1
    omega
  have hb : b = oracleEntry e.adj e.nNodes e.maxLength v := by
    rw [hpg', horc.2 v hvn hv1, Option.some.injEq] at hpg
    exact hpg.symm
  refine ⟨_, metricFn_of_collect e samples ls bs hcol, ?_, ?_⟩
  · rintro ⟨⟨p, hsp, hclean, hchain⟩, hlength⟩
    have hscan : scanLength e.adj e.nNodes (v :: rest') = p.length + 1 := by
      rw [← hdec', hsp]
      have := scanLength_reach e.adj e.nNodes (by omega) p [] hclean hchain
      simpa using this
    have hplen : p.length + 1 = oracleEntry e.adj e.nNodes e.maxLength v := by
      rw [← hlength, hsp, List.length_append, List.length_singleton]
    rw [List.get?_map, get?_zip_of_get? i _ b hls hbs, Option.map_some']
    rw [hscan, hplen, hb]
    have hne : oracleEntry e.adj e.nNodes e.maxLength v ≠ infty := by
      have h100 : infty = 100 := rfl
      omega
    rw [boundLength, if_neg hne]
    rw [optValue_eq_one _ _ hbound]
  · intro hbd
    rw [hdec'] at hbd
    rw [List.get?_map, get?_zip_of_get? i _ b hls hbs, Option.map_some']
    rw [hbd, hb]
    rw [optValue_eq_zero _ _ hbound]


set_option maxRecDepth 2000 in
/-- Claim C5, counterexample: over the chain graph with `max_length = 3`, the
sample `"cba"` decodes to `[2, 1, 0]`, a valid goal-reaching walk that
matches the oracle's shortest path from its first node 2 (the oracle entry is
3, equal to the walk's length) — yet its optimality is not 1.0: the
denominator `worstlen - best_lengths[1]` is `3 - 3 = 0`, and the division
produces no finite value (`none`, NaN in the source).  The generator can
produce this environment, whose oracle entry equals the worst-case bound. -/
theorem c5_counterexample :
    decodeSample envChainShort ['c', 'b', 'a'] = [2, 1, 0] ∧
    IsPathTo envChainShort.adj envChainShort.nNodes [2, 1, 0] ∧
    oracleSpec envChainShort ∧
    ([2, 1, 0] : List ℕ).length =
      oracleEntry envChainShort.adj envChainShort.nNodes envChainShort.maxLength 2 ∧
    (metricFn envChainShort [['c', 'b', 'a']]).map MetricResult.optimality = some [none] ∧
    (none : Option ℚ) ≠ some 1 := by
  refine ⟨by decide, ⟨[2, 1], by decide, ?_, ?_⟩, ⟨rfl, by decide⟩, by decide, ?_, by decide⟩
  · exact cleanSeg_of_all _ _ (by decide)
  · exact (chainHolds_iff envChainShort.adj [2, 1, 0]).1 (by decide)
  · have hcol : collect envChainShort [['c', 'b', 'a']] = some ([3], [3]) := by decide
    rw [metricFn_of_collect envChainShort [['c', 'b', 'a']] [3] [3] hcol]
    simp only [Option.map_some']
    have hbl : boundLength envChainShort.maxLength 3 = 3 := by decide
    have hov : optValue envChainShort.maxLength 3 3 = none := by decide
    simp [hbl, hov]


/-- Witness for C5 at a concrete call: `"ba"` over the chain graph matches
the oracle's shortest path from node 1 (oracle entry 2 < worst-case 10) and
scores optimality exactly 1. -/
theorem c5_witness :
    collect envChain [['b', 'a']] = some ([2], [2]) ∧
    (∃ res, metricFn envChain [['b', 'a']] = some res ∧
      res.optimality.get? 0 = some (some 1)) := by
  refine ⟨by decide, ?_⟩
  obtain ⟨res, hres, h1, h0⟩ :=
    c5_amended envChain [['b', 'a']] 0 ['b', 'a'] 1 [2] [2]
      ⟨rfl, by decide⟩ (by decide) (by decide) (by decide) (by decide) (by decide)
      (by decide) (by decide)
  refine ⟨res, hres, h1 ⟨⟨[1], by decide, ?_, ?_⟩, by decide⟩⟩
  · exact cleanSeg_of_all _ _ (by decide)
  · exact (chainHolds_iff envChain.adj [1, 0]).1 (by decide)


/-! ### The oracle entry of a genuinely shortest path

These lemmas justify the reading of "a walk matching the oracle's shortest
path" used in claim C5: a valid goal-reaching path of minimal length among
all valid paths from its start node has length equal to `oracleEntry` (when
within the caps), so the hypothesis `length = oracleEntry` of `c5_amended`
holds for it. -/

theorem reachIn_succ_of (adj : ℕ → ℕ → Bool) (n : ℕ) :
    ∀ (k : ℕ) (u w : ℕ), reachIn adj n k u w = true → reachIn adj n (k + 1) u w = true := by
  intro k
  induction k with
  | zero =>
    intro u w h
    rw [reachIn] at h
    rw [reachIn]
    simp only [Bool.or_eq_true]
    exact Or.inl h
  | succ k ih =>
    intro u w h
    rw [reachIn] at h
    rw [reachIn]
    simp only [Bool.or_eq_true, List.any_eq_true, Bool.and_eq_true] at h ⊢
    rcases h with h | ⟨x, hx, hadj, hr⟩
    · exact Or.inl h
    · exact Or.inr ⟨x, hx, hadj, ih x w hr⟩


theorem reachIn_mono (adj : ℕ → ℕ → Bool) (n : ℕ) (k k' u w : ℕ)
    (hkk : k ≤ k') (h : reachIn adj n k u w = true) : reachIn adj n k' u w = true := by
  induction k' with
  | zero =>
    have : k = 0 := by omega
    subst this
    exact h
  | succ m ih =>
    rcases Nat.lt_or_ge k (m + 1) with hlt | hge
    · exact reachIn_succ_of adj n m u w (ih (by omega))
    · have : k = m + 1 := by omega
      subst this
      exact h


/-- A valid goal-reaching chain witnesses reachability in as many edges as it
has. -/
theorem path_reachIn (adj : ℕ → ℕ → Bool) (n : ℕ) (hn : 0 < n) :
    ∀ (p : List ℕ) (v : ℕ), (∀ x ∈ p, x < n) →
      List.Chain' (fun a b => adj a b = true) (v :: (p ++ [0])) →
      reachIn adj n (p.length + 1) v 0 = true := by
  intro p
  induction p with
  | nil =>
    intro v _ hchain
    simp only [List.nil_append] at hchain
    rw [List.chain'_cons] at hchain
    simp only [List.length_nil]
    rw [reachIn]
    simp only [Bool.or_eq_true, List.any_eq_true, Bool.and_eq_true]
    refine Or.inr ⟨0, by simp [List.mem_range, hn], hchain.1, by rw [reachIn]; simp⟩
  | cons x p' ih =>
    intro v hmem hchain
    rw [show (v :: ((x :: p') ++ [0])) = v :: x :: (p' ++ [0]) from rfl,
      List.chain'_cons] at hchain
    have hx : x < n := hmem x (by simp)
    have hrec := ih x (fun y hy => hmem y (by simp [hy])) hchain.2
    simp only [List.length_cons]
    rw [reachIn]
    simp only [Bool.or_eq_true, List.any_eq_true, Bool.and_eq_true]
    exact Or.inr ⟨x, by simp [List.mem_range, hx], hchain.1, hrec⟩


/-- Reachability in `k` edges yields a valid goal-reaching path with at most
`k + 1` nodes. -/
theorem reachIn_to_path (adj : ℕ → ℕ → Bool) (n : ℕ) :
    ∀ (k u : ℕ), u < n → reachIn adj n k u 0 = true →
      ∃ q, CleanSeg n q ∧ List.Chain' (fun a b => adj a b = true) (q ++ [0]) ∧
        (q ++ [0]).head? = some u ∧ (q ++ [0]).length ≤ k + 1 := by
  intro k
  induction k with
  | zero =>
    intro u _ h
    rw [reachIn] at h
    rw [beq_iff_eq] at h
    subst h
    exact ⟨[], fun x hx => absurd hx (List.not_mem_nil x), by simp, by simp, by simp⟩
  | succ k ih =>
    intro u hu h
    rw [reachIn] at h
    simp only [Bool.or_eq_true, List.any_eq_true, Bool.and_eq_true, beq_iff_eq] at h
    rcases h with h | ⟨w, hw, hadj, hr⟩
    · subst h
      exact ⟨[], fun x hx => absurd hx (List.not_mem_nil x), by simp, by simp, by simp⟩
    · rw [List.mem_range] at hw
      obtain ⟨q', hclean', hchain', hhead', hlen'⟩ := ih w hw hr
      rcases eq_or_ne u 0 with h0 | h0
      · subst h0
        exact ⟨[], fun x hx => absurd hx (List.not_mem_nil x), by simp, by simp, by simp⟩
      · refine ⟨u :: q', ?_, ?_, by simp, ?_⟩
        · intro x hx
          rcases List.mem_cons.1 hx with hx | hx
          · subst hx
            exact ⟨hu, h0⟩
          · exact hclean' x hx
        · rw [show ((u :: q') ++ [0]) = u :: (q' ++ [0]) from rfl, List.chain'_cons']
          constructor
          · intro y hy
            rw [hhead', Option.mem_def, Option.some.injEq] at hy
            subst hy
            exact hadj
          · exact hchain'
        · simp only [List.length_append, List.length_cons] at hlen' ⊢
          omega


theorem find?_range_eq_some (P : ℕ → Bool) :
    ∀ (N d : ℕ), d < N → P d = true → (∀ k, k < d → P k = false) →
      (List.range N).find? P = some d := by
  intro N
  induction N with
  | zero =>
    intro d hd
    exact absurd hd (Nat.not_lt_zero d)
  | succ m ih =>
    intro d hd hP hmin
    rw [List.range_succ, List.find?_append]
    rcases Nat.lt_or_ge d m with hlt | hge
    · rw [ih d hlt hP hmin]
      rfl
    · have hdm : d = m := by omega
      subst hdm
      have hnone : (List.range d).find? P = none := by
        rw [List.find?_eq_none]
        intro x hx
        rw [List.mem_range] at hx
        simp [hmin x hx]
      rw [hnone]
      simp [List.find?_cons_of_pos, hP]


/-- A valid goal-reaching path from `v` that is shortest among all such paths
has exactly the oracle's recorded length, provided it fits the `max_length`
cap and the node-count bound (a minimal path repeats no node, so it has at
most `n` nodes; we take that bound as a hypothesis). -/
theorem shortestPath_oracleEntry (adj : ℕ → ℕ → Bool) (n maxLength : ℕ)
    (v : ℕ) (s : List ℕ) (p : List ℕ)
    (hn : 0 < n) (hv : 1 ≤ v)
    (hsp : s = p ++ [0]) (hclean : CleanSeg n p)
    (hchain : List.Chain' (fun a b => adj a b = true) (p ++ [0]))
    (hhead : s.head? = some v)
    (hmin : ∀ q, CleanSeg n q → List.Chain' (fun a b => adj a b = true) (q ++ [0]) →
      (q ++ [0]).head? = some v → s.length ≤ (q ++ [0]).length)
    (hcap : s.length ≤ maxLength) (hnodes : s.length ≤ n + 1) :
    oracleEntry adj n maxLength v = s.length := by
  obtain ⟨p', hp'⟩ : ∃ p', p = v :: p' := by
    cases p with
    | nil =>
      rw [hsp] at hhead
      simp at hhead
      omega
    | cons a t =>
      rw [hsp] at hhead
      simp at hhead
      exact ⟨t, by rw [hhead]⟩
  subst hp'
  have hslen : s.length = p'.length + 2 := by
    rw [hsp]
    simp
  have hreach : reachIn adj n (s.length - 1) v 0 = true := by
    have := path_reachIn adj n hn p' v
      (fun y hy => (hclean y (by simp [hy])).1)
      (by rw [show (v :: (p' ++ [0])) = (v :: p') ++ [0] from rfl]; exact hchain)
    rw [hslen]
    simpa using this
  have hleast : ∀ k, k < s.length - 1 → reachIn adj n k v 0 = false := by
    intro k hk
    by_contra hcon
    rw [Bool.not_eq_false] at hcon
    obtain ⟨q, hcq, hchq, hhq, hlq⟩ := reachIn_to_path adj n k v (hclean v (by simp)).1 hcon
    have := hmin q hcq hchq hhq
    omega
  have hfind : shortestDist adj n v = some (s.length - 1) := by
    unfold shortestDist
    exact find?_range_eq_some _ (n + 1) (s.length - 1) (by omega) hreach hleast
  unfold oracleEntry
  rw [hfind]
  dsimp only
  rw [Nat.min_eq_left (by omega)]
  omega
